import Mathlib

/-!
Verification of the publickey repository (crypt.py, dcrypt.py, encrypt.py,
maths.py): a shallow embedding of the block codec, the RSA-style cipher
engine, the primality tester and the key generator, together with proofs
about the spec's testable properties.

Modelling conventions:
* Python ASCII strings are modelled as `List Nat` of character codes (the
  `str.encode("ascii")` step is the identity on codes < 128).
* Python arbitrary-precision integers are `Nat` where the source only ever
  sees non-negative values, and `Int` for `multinv`, whose loop genuinely
  manipulates signed values (`//` and `%` on `Int` are modelled by `fdiv`
  and `fmod`, Python's floor-division semantics).
* Unbounded `while` loops are modelled as fuelled recursions whose fuel is
  provably sufficient (lemmas below), keeping every definition executable
  by the kernel.
* `pow(a, d, n)` is modelled by `pow_mod`, binary modular exponentiation,
  with `pow_mod_eq : pow_mod a d n = a ^ d % n`.
-/

/-! ## Block codec (crypt.py `text2int` / `int2text`) -/

/-- Model of Python's `msg.rstrip("\0")`: strip trailing NUL (0) codes. -/
def rstripNul (l : List Nat) : List Nat :=
  ((l.reverse).dropWhile (fun c => c == 0)).reverse

/-- Value of one block of bytes, crypt.py lines 20-26: the inner loop adds
`msg[i] * 256 ** (i % block_size)`, i.e. the little-endian base-256 value
of the chunk (within a block starting at index `block`, `i % block_size`
equals `i - block`). -/
def blockVal (chunk : List Nat) : Nat :=
  chunk.foldr (fun c acc => c + 256 * acc) 0

/-- The outer loop `for block in range(0, len(msg), block_size)` of
`text2int` walks the byte list in consecutive chunks of `block_size`
bytes (the last chunk may be shorter).  `fuel` bounds the number of
iterations; `fuel = l.length` is always sufficient when `1 ≤ bs`
(Python raises `ValueError` for `block_size = 0`, which is outside every
claim's scope). -/
def chunkList (bs : Nat) : Nat → List Nat → List (List Nat)
  | 0, _ => []
  | _, [] => []
  | fuel+1, l => l.take bs :: chunkList bs fuel (l.drop bs)

/-- Model of crypt.py `text2int(msg, block_size)` (lines 14-27): strip
trailing NULs, then encode each `block_size`-byte chunk as its
little-endian base-256 value. -/
def text2int (msg : List Nat) (bs : Nat) : List Nat :=
  let m := rstripNul msg
  (chunkList bs m.length m).map blockVal

/-- The inner loop of `int2text` (crypt.py lines 35-38): for
`i = block_size-1, ..., 0` emit `block_int // 256**i` and keep the
remainder `block_int % 256**i`; the digits come out most-significant
first. -/
def decodeBlockAux : Nat → Nat → List Nat
  | 0, _ => []
  | i+1, v => v / 256 ^ i :: decodeBlockAux i (v % 256 ^ i)

/-- Model of crypt.py `int2text(ints, block_size)` (lines 29-40): decode
each block into `block_size` digits, reverse each block
(`block_msg[::-1]`), concatenate, and strip trailing NULs. -/
def int2text (ints : List Nat) (bs : Nat) : List Nat :=
  rstripNul ((ints.map (fun v => (decodeBlockAux bs v).reverse)).flatten)

/-- Little-endian digits of `v` in base 256, least significant first:
the reference shape that both directions of the codec are compared
against. -/
def lowDigits : Nat → Nat → List Nat
  | 0, _ => []
  | b+1, v => v % 256 :: lowDigits b (v / 256)

theorem blockVal_lt {ch : List Nat} (h : ∀ c ∈ ch, c < 256) :
    blockVal ch < 256 ^ ch.length := by
  induction ch with
  | nil => simp [blockVal]
  | cons c rest ih =>
    have hc : c < 256 := h c (by simp)
    have hr : blockVal rest < 256 ^ rest.length :=
      ih (fun x hx => h x (by simp [hx]))
    simp only [blockVal, List.foldr_cons, List.length_cons, pow_succ]
    show c + 256 * blockVal rest < 256 ^ rest.length * 256
    calc c + 256 * blockVal rest ≤ 255 + 256 * (256 ^ rest.length - 1) := by
          have : blockVal rest ≤ 256 ^ rest.length - 1 := by omega
          omega
      _ < 256 ^ rest.length * 256 := by
          have : 1 ≤ 256 ^ rest.length := Nat.one_le_two_pow.trans
            (Nat.pow_le_pow_left (by norm_num) _)
          omega

theorem lowDigits_zero (b : Nat) : lowDigits b 0 = List.replicate b 0 := by
  induction b with
  | zero => rfl
  | succ b ih => simp [lowDigits, ih, List.replicate_succ]

theorem lowDigits_split {b v : Nat} (hv : v < 256 ^ (b + 1)) :
    lowDigits (b + 1) v = lowDigits b (v % 256 ^ b) ++ [v / 256 ^ b] := by
  induction b generalizing v with
  | zero =>
    have hv' : v < 256 := by simpa using hv
    simp [lowDigits, Nat.mod_eq_of_lt hv']
  | succ b ih =>
    have h256 : (0:Nat) < 256 := by norm_num
    have hv' : v / 256 < 256 ^ (b + 1) := by
      rw [Nat.div_lt_iff_lt_mul h256]
      calc v < 256 ^ (b + 1 + 1) := hv
        _ = 256 ^ (b + 1) * 256 := by ring
    have e1 : v % 256 ^ (b + 1) % 256 = v % 256 :=
      Nat.mod_mod_of_dvd v (dvd_pow_self 256 (Nat.succ_ne_zero b))
    have e2 : v % 256 ^ (b + 1) / 256 = v / 256 % 256 ^ b := by
      have : (256:Nat) ^ (b+1) = 256 * 256 ^ b := by ring
      rw [this, Nat.mod_mul_right_div_self]
    have e3 : v / 256 ^ (b + 1) = v / 256 / 256 ^ b := by
      rw [Nat.div_div_eq_div_mul]
      congr 1
      ring
    calc lowDigits (b + 1 + 1) v = v % 256 :: lowDigits (b + 1) (v / 256) := rfl
      _ = v % 256 :: (lowDigits b (v / 256 % 256 ^ b) ++ [v / 256 / 256 ^ b]) := by
          rw [ih hv']
      _ = lowDigits (b + 1) (v % 256 ^ (b + 1)) ++ [v / 256 ^ (b + 1)] := by
          simp only [lowDigits, e1, e2, e3]
          rfl

theorem decodeBlockAux_reverse {b v : Nat} (hv : v < 256 ^ b) :
    (decodeBlockAux b v).reverse = lowDigits b v := by
  induction b generalizing v with
  | zero => rfl
  | succ b ih =>
    have hmod : v % 256 ^ b < 256 ^ b :=
      Nat.mod_lt _ (Nat.pos_pow_of_pos b (by norm_num))
    calc (decodeBlockAux (b+1) v).reverse
        = (decodeBlockAux b (v % 256 ^ b)).reverse ++ [v / 256 ^ b] := by
          simp [decodeBlockAux]
      _ = lowDigits b (v % 256 ^ b) ++ [v / 256 ^ b] := by rw [ih hmod]
      _ = lowDigits (b+1) v := (lowDigits_split hv).symm

theorem lowDigits_blockVal {ch : List Nat} {b : Nat}
    (h : ∀ c ∈ ch, c < 256) (hlen : ch.length ≤ b) :
    lowDigits b (blockVal ch) = ch ++ List.replicate (b - ch.length) 0 := by
  induction ch generalizing b with
  | nil => simp [blockVal, lowDigits_zero]
  | cons c rest ih =>
    obtain ⟨b', rfl⟩ : ∃ b', b = b' + 1 := by
      cases b with
      | zero => simp at hlen
      | succ b' => exact ⟨b', rfl⟩
    have hc : c < 256 := h c (by simp)
    have hv : blockVal (c :: rest) = c + 256 * blockVal rest := by
      simp [blockVal]
    have e1 : (c + 256 * blockVal rest) % 256 = c := by
      omega
    have e2 : (c + 256 * blockVal rest) / 256 = blockVal rest := by
      omega
    have hlen' : rest.length ≤ b' := by simpa using hlen
    calc lowDigits (b' + 1) (blockVal (c :: rest))
        = c :: lowDigits b' (blockVal rest) := by
          simp [lowDigits, hv, e1, e2]
      _ = c :: (rest ++ List.replicate (b' - rest.length) 0) := by
          rw [ih (fun x hx => h x (by simp [hx])) hlen']
      _ = (c :: rest) ++ List.replicate (b' + 1 - (c :: rest).length) 0 := by
          simp

theorem decode_blockVal {ch : List Nat} {b : Nat}
    (h : ∀ c ∈ ch, c < 256) (hlen : ch.length ≤ b) :
    (decodeBlockAux b (blockVal ch)).reverse
      = ch ++ List.replicate (b - ch.length) 0 := by
  have hv : blockVal ch < 256 ^ b :=
    lt_of_lt_of_le (blockVal_lt h) (Nat.pow_le_pow_right (by norm_num) hlen)
  rw [decodeBlockAux_reverse hv, lowDigits_blockVal h hlen]

theorem chunkList_nil (bs fuel : Nat) : chunkList bs fuel [] = [] := by
  cases fuel <;> rfl

theorem chunkList_flat_decode {bs : Nat} (hbs : 1 ≤ bs) :
    ∀ (fuel : Nat) (l : List Nat), l.length ≤ fuel → (∀ c ∈ l, c < 256) →
    ∃ k, ((chunkList bs fuel l).map
        (fun ch => (decodeBlockAux bs (blockVal ch)).reverse)).flatten
      = l ++ List.replicate k 0 := by
  intro fuel
  induction fuel with
  | zero =>
    intro l hl _
    have : l = [] := List.length_eq_zero.mp (Nat.le_zero.mp hl)
    exact ⟨0, by simp [this, chunkList]⟩
  | succ fuel ih =>
    intro l hl hc
    cases l with
    | nil => exact ⟨0, by simp [chunkList]⟩
    | cons c0 rest =>
      set l := c0 :: rest with hldef
      have hstep : chunkList bs (fuel+1) l = l.take bs :: chunkList bs fuel (l.drop bs) := rfl
      have htakelen : (l.take bs).length ≤ bs := by
        simp [List.length_take]
      have htakemem : ∀ c ∈ l.take bs, c < 256 :=
        fun c hcm => hc c (List.mem_of_mem_take hcm)
      have hdroplen : (l.drop bs).length ≤ fuel := by
        have := List.length_drop bs l
        have hl' : l.length ≤ fuel + 1 := hl
        have h1 : 1 ≤ bs := hbs
        omega
      have hdropmem : ∀ c ∈ l.drop bs, c < 256 :=
        fun c hcm => hc c (List.mem_of_mem_drop hcm)
      obtain ⟨k, hk⟩ := ih (l.drop bs) hdroplen hdropmem
      by_cases hsplit : l.length ≤ bs
      · -- single chunk: take is the whole list, drop is empty
        have htake : l.take bs = l := List.take_of_length_le hsplit
        have hdrop : l.drop bs = [] := List.drop_eq_nil_of_le hsplit
        refine ⟨bs - l.length, ?_⟩
        rw [hstep]
        simp only [List.map_cons, List.flatten_cons]
        rw [decode_blockVal htakemem htakelen, hdrop, htake, chunkList_nil]
        simp
      · -- full chunk then recurse
        push_neg at hsplit
        have htklen : (l.take bs).length = bs := by
          simp [List.length_take]
          omega
        refine ⟨k, ?_⟩
        rw [hstep]
        simp only [List.map_cons, List.flatten_cons]
        rw [decode_blockVal htakemem htakelen, hk, htklen]
        rw [Nat.sub_self, List.replicate_zero, List.append_nil,
          ← List.append_assoc, List.take_append_drop]

theorem chunkList_length {bs : Nat} (hbs : 1 ≤ bs) :
    ∀ (fuel : Nat) (l : List Nat), l.length ≤ fuel →
    (chunkList bs fuel l).length = (l.length + bs - 1) / bs := by
  intro fuel
  induction fuel with
  | zero =>
    intro l hl
    have hnil : l = [] := List.length_eq_zero.mp (Nat.le_zero.mp hl)
    subst hnil
    have hz : (bs - 1) / bs = 0 := Nat.div_eq_of_lt (by omega)
    simp [chunkList, hz]
  | succ fuel ih =>
    intro l hl
    cases l with
    | nil =>
      have hz : (bs - 1) / bs = 0 := Nat.div_eq_of_lt (by omega)
      simp [chunkList_nil, hz]
    | cons c0 rest =>
      set l := c0 :: rest with hldef
      have hstep : chunkList bs (fuel+1) l = l.take bs :: chunkList bs fuel (l.drop bs) := rfl
      have hdroplen : (l.drop bs).length ≤ fuel := by
        have := List.length_drop bs l
        have hl' : l.length ≤ fuel + 1 := hl
        omega
      rw [hstep]
      simp only [List.length_cons, ih (l.drop bs) hdroplen, List.length_drop]
      have hlpos : 1 ≤ l.length := by simp [hldef]
      rcases le_or_lt l.length bs with hle | hgt
      · rw [Nat.sub_eq_zero_of_le hle]
        have h1 : (l.length + bs - 1) / bs = 1 := by
          apply Nat.div_eq_of_lt_le <;> omega
        have hz : (0 + bs - 1) / bs = 0 := Nat.div_eq_of_lt (by omega)
        rw [h1, hz]
      · have hre : l.length + bs - 1 = (l.length - bs + bs - 1) + bs := by omega
        rw [hre, Nat.add_div_right _ (by omega)]

theorem chunkList_mem {bs : Nat} :
    ∀ (fuel : Nat) (l : List Nat) (ch : List Nat), ch ∈ chunkList bs fuel l →
    ch.length ≤ bs ∧ ∀ c ∈ ch, c ∈ l := by
  intro fuel
  induction fuel with
  | zero => intro l ch h; simp [chunkList] at h
  | succ fuel ih =>
    intro l ch h
    cases l with
    | nil => simp [chunkList] at h
    | cons c0 rest =>
      set l := c0 :: rest with hldef
      have hstep : chunkList bs (fuel+1) l = l.take bs :: chunkList bs fuel (l.drop bs) := rfl
      rw [hstep] at h
      rcases List.mem_cons.mp h with rfl | htail
      · exact ⟨by simp [List.length_take], fun c hcm => List.mem_of_mem_take hcm⟩
      · obtain ⟨h1, h2⟩ := ih (l.drop bs) ch htail
        exact ⟨h1, fun c hcm => List.mem_of_mem_drop (h2 c hcm)⟩

theorem dropWhile_replicate_append (p : Nat → Bool) (hp : p 0 = true)
    (k : Nat) (l : List Nat) :
    (List.replicate k 0 ++ l).dropWhile p = l.dropWhile p := by
  induction k with
  | zero => simp
  | succ k ih => simp [List.replicate_succ, List.dropWhile, hp, ih]

theorem dropWhile_idem (p : Nat → Bool) (x : List Nat) :
    List.dropWhile p (List.dropWhile p x) = List.dropWhile p x := by
  induction x with
  | nil => rfl
  | cons a t ih => by_cases h : p a <;> simp [List.dropWhile_cons, h, ih]

theorem rstripNul_idem (l : List Nat) : rstripNul (rstripNul l) = rstripNul l := by
  unfold rstripNul
  rw [List.reverse_reverse, dropWhile_idem]

theorem rstripNul_append_replicate (l : List Nat) (k : Nat) :
    rstripNul (l ++ List.replicate k 0) = rstripNul l := by
  unfold rstripNul
  rw [List.reverse_append, List.reverse_replicate,
    dropWhile_replicate_append _ rfl]

theorem mem_rstripNul {c : Nat} {l : List Nat} (h : c ∈ rstripNul l) : c ∈ l := by
  unfold rstripNul at h
  rw [List.mem_reverse] at h
  have := (List.dropWhile_sublist (l := l.reverse) (p := fun c => c == 0)).mem h
  rwa [List.mem_reverse] at this

theorem length_rstripNul_le (l : List Nat) : (rstripNul l).length ≤ l.length := by
  unfold rstripNul
  rw [List.length_reverse]
  calc (l.reverse.dropWhile (fun c => c == 0)).length ≤ l.reverse.length :=
        (List.dropWhile_sublist _).length_le
    _ = l.length := List.length_reverse l

/-- Core round-trip fact shared by several claims: decoding the encoded
blocks of a byte list recovers it up to trailing NULs. -/
theorem int2text_text2int (m : List Nat) (bs : Nat) (hbs : 1 ≤ bs)
    (hm : ∀ c ∈ m, c < 256) :
    int2text (text2int m bs) bs = rstripNul m := by
  unfold text2int int2text
  simp only [List.map_map]
  have hmem : ∀ c ∈ rstripNul m, c < 256 := fun c hcm => hm c (mem_rstripNul hcm)
  obtain ⟨k, hk⟩ := chunkList_flat_decode hbs (rstripNul m).length (rstripNul m)
    le_rfl hmem
  have hcomp : ((chunkList bs (rstripNul m).length (rstripNul m)).map
      ((fun v => (decodeBlockAux bs v).reverse) ∘ blockVal)).flatten
      = rstripNul m ++ List.replicate k 0 := hk
  rw [hcomp, rstripNul_append_replicate, rstripNul_idem]

/-- C2: for every ASCII string `m` (codes < 128) with no trailing NUL
character (`rstripNul m = m`) and every `blockSize b ≥ 1`,
`int2text (text2int m b) b = m`: the codec round-trip is the identity on
such messages. -/
theorem C2_round_trip (m : List Nat) (b : Nat)
    (hascii : ∀ c ∈ m, c < 128) (hnul : rstripNul m = m) (hb : 1 ≤ b) :
    int2text (text2int m b) b = m := by
  rw [int2text_text2int m b hb
    (fun c hc => lt_trans (hascii c hc) (by norm_num)), hnul]

theorem C2_round_trip_witness :
    (∀ c ∈ [104, 105, 0, 33], c < 128) ∧ rstripNul [104, 105, 0, 33] = [104, 105, 0, 33]
      ∧ 1 ≤ 3 ∧ int2text (text2int [104, 105, 0, 33] 3) 3 = [104, 105, 0, 33] :=
  ⟨by decide, by decide, by decide,
    C2_round_trip [104, 105, 0, 33] 3 (by decide) (by decide) (by decide)⟩

/-- C7: `text2int m b` returns exactly `⌈L / b⌉` blocks, `L` the byte
length after stripping trailing NULs; a message of exactly `b` bytes
yields one block, and one of `b+1` bytes yields two blocks whose second
element is the value of the single trailing byte. -/
theorem C7_block_count (m : List Nat) (b : Nat) (hb : 1 ≤ b) :
    (text2int m b).length = ((rstripNul m).length + b - 1) / b
    ∧ (rstripNul m = m → m.length = b → text2int m b = [blockVal m])
    ∧ (rstripNul m = m → m.length = b + 1 →
        ∃ c, m.drop b = [c] ∧ text2int m b = [blockVal (m.take b), c]) := by
  refine ⟨?_, ?_, ?_⟩
  · show ((chunkList b (rstripNul m).length (rstripNul m)).map blockVal).length = _
    rw [List.length_map]
    exact chunkList_length hb _ _ le_rfl
  · intro hnul hlen
    show (chunkList b (rstripNul m).length (rstripNul m)).map blockVal = _
    rw [hnul, hlen]
    obtain ⟨b', rfl⟩ : ∃ b', b = b' + 1 := ⟨b - 1, by omega⟩
    cases m with
    | nil => simp at hlen
    | cons c0 rest =>
      have hstep : chunkList (b'+1) (b'+1) (c0 :: rest)
          = (c0 :: rest).take (b'+1) :: chunkList (b'+1) b' ((c0 :: rest).drop (b'+1)) := rfl
      rw [hstep, List.drop_eq_nil_of_le (by omega), chunkList_nil,
        List.take_of_length_le (by omega)]
      rfl
  · intro hnul hlen
    have hdlen : (m.drop b).length = 1 := by
      rw [List.length_drop, hlen]
      omega
    obtain ⟨c, hc⟩ := List.length_eq_one.mp hdlen
    refine ⟨c, hc, ?_⟩
    show (chunkList b (rstripNul m).length (rstripNul m)).map blockVal = _
    rw [hnul, hlen]
    obtain ⟨b', rfl⟩ : ∃ b', b = b' + 1 := ⟨b - 1, by omega⟩
    cases m with
    | nil => simp at hlen
    | cons c0 rest =>
      have hstep : chunkList (b'+1) (b'+1+1) (c0 :: rest)
          = (c0 :: rest).take (b'+1) :: chunkList (b'+1) (b'+1) ((c0 :: rest).drop (b'+1)) := rfl
      rw [hstep, hc]
      have hdrop1 : [c].drop (b'+1) = [] := List.drop_eq_nil_of_le (by simp)
      have htake1 : [c].take (b'+1) = [c] := List.take_of_length_le (by simp)
      have hstep2 : chunkList (b'+1) (b'+1) [c]
          = [c].take (b'+1) :: chunkList (b'+1) b' ([c].drop (b'+1)) := rfl
      rw [hstep2, hdrop1, chunkList_nil, htake1]
      simp [blockVal]

theorem C7_block_count_witness :
    1 ≤ 2
    ∧ (text2int [97, 98, 99] 2).length = ((rstripNul [97, 98, 99]).length + 2 - 1) / 2
    ∧ (rstripNul [97, 98, 99] = [97, 98, 99] → [97, 98, 99].length = 2 + 1 →
        ∃ c, [97, 98, 99].drop 2 = [c]
          ∧ text2int [97, 98, 99] 2 = [blockVal ([97, 98, 99].take 2), c]) :=
  ⟨by decide, (C7_block_count [97, 98, 99] 2 (by decide)).1,
    (C7_block_count [97, 98, 99] 2 (by decide)).2.2⟩

/-- Core bound shared by several claims: every block produced by
`text2int` on a byte list is below `256 ^ blockSize`. -/
theorem text2int_blocks_lt {m : List Nat} {b : Nat}
    (hbytes : ∀ c ∈ m, c < 256) :
    ∀ v ∈ text2int m b, v < 256 ^ b := by
  intro v hv
  obtain ⟨ch, hch, rfl⟩ := List.mem_map.mp hv
  obtain ⟨hlen, hmem⟩ := chunkList_mem _ _ ch hch
  have hbound : blockVal ch < 256 ^ ch.length :=
    blockVal_lt (fun c hc => hbytes c (mem_rstripNul (hmem c hc)))
  exact lt_of_lt_of_le hbound (Nat.pow_le_pow_right (by norm_num) hlen)

/-- C8: every integer produced by `text2int m b` for an ASCII message is
non-negative (automatic in the `Nat` model) and strictly less than
`256 ^ b`. -/
theorem C8_block_bound (m : List Nat) (b : Nat) (_hb : 1 ≤ b)
    (hascii : ∀ c ∈ m, c < 128) :
    ∀ v ∈ text2int m b, 0 ≤ v ∧ v < 256 ^ b := by
  intro v hv
  exact ⟨Nat.zero_le v,
    text2int_blocks_lt
      (fun c hc => lt_trans (hascii c hc) (by norm_num)) v hv⟩

theorem C8_block_bound_witness :
    1 ≤ 2 ∧ (∀ c ∈ [104, 105, 33], c < 128)
      ∧ ∀ v ∈ text2int [104, 105, 33] 2, 0 ≤ v ∧ v < 256 ^ 2 :=
  ⟨by decide, by decide, C8_block_bound [104, 105, 33] 2 (by decide) (by decide)⟩

/-! ## Modular exponentiation (Python's three-argument `pow`) -/

/-- Binary modular exponentiation, the model of Python's `pow(a, d, n)`.
The fuel argument bounds the recursion depth; since each step halves the
exponent, any fuel above the exponent is sufficient. -/
def powModAux : Nat → Nat → Nat → Nat → Nat
  | 0, _, _, n => 1 % n
  | f+1, a, d, n =>
    if d = 0 then 1 % n else
    let r := powModAux f (a * a % n) (d / 2) n
    if d % 2 = 1 then r * a % n else r

/-- Model of Python's `pow(a, d, n)`. -/
def pow_mod (a d n : Nat) : Nat := powModAux (d + 1) a d n

theorem powModAux_eq (f : Nat) : ∀ a d n : Nat, d < f → powModAux f a d n = a ^ d % n := by
  induction f with
  | zero => intro a d n h; omega
  | succ f ih =>
    intro a d n h
    by_cases hd : d = 0
    · simp [powModAux, hd]
    · have hdf : d / 2 < f := by omega
      have hrec : powModAux f (a * a % n) (d / 2) n = (a * a) ^ (d / 2) % n := by
        rw [ih (a * a % n) (d / 2) n hdf, ← Nat.pow_mod]
      have hpow : (a * a) ^ (d / 2) = a ^ (2 * (d / 2)) := by
        rw [← pow_two, ← pow_mul]
      by_cases hodd : d % 2 = 1
      · have hstep : powModAux (f+1) a d n = (powModAux f (a*a%n) (d/2) n) * a % n := by
          simp [powModAux, hd, hodd]
        have hexp : 2 * (d / 2) + 1 = d := by omega
        rw [hstep, hrec, hpow, Nat.mod_mul_mod, ← pow_succ, hexp]
      · have hstep : powModAux (f+1) a d n = powModAux f (a*a%n) (d/2) n := by
          simp [powModAux, hd, hodd]
        have hexp : 2 * (d / 2) = d := by omega
        rw [hstep, hrec, hpow, hexp]

theorem pow_mod_eq (a d n : Nat) : pow_mod a d n = a ^ d % n :=
  powModAux_eq (d + 1) a d n (by omega)

/-! ## Cipher engine (crypt.py / dcrypt.py `encrypt` and `decrypt`) -/

/-- Model of crypt.py `encrypt(msg, key, block_size)` (lines 42-47): the
two-component key `(n, e)`; each block is raised to the public exponent
modulo `n`. -/
def encrypt (msg : List Nat) (key : Nat × Nat) (bs : Nat) : List Nat :=
  (text2int msg bs).map (fun b => pow_mod b key.2 key.1)

/-- Model of crypt.py `decrypt(encrypted_blocks, key, block_size)`
(lines 49-54): the two-component key `(n, d)`; each block is raised to the
private exponent modulo `n` and the result decoded. -/
def decrypt (blocks : List Nat) (key : Nat × Nat) (bs : Nat) : List Nat :=
  int2text (blocks.map (fun b => pow_mod b key.2 key.1)) bs

/-- Error-aware model of the `text2int` call made by dcrypt.py `encrypt`
(dcrypt.py lines 14-29), in Python's evaluation order:
`msg.rstrip("\0").encode("ascii")` raises `UnicodeEncodeError` on any
character code ≥ 128, then `range(0, len(msg), block_size)` raises
`ValueError` when `block_size = 0`; otherwise the encoding succeeds with
the blocks of `text2int`. -/
def text2intChecked (msg : List Nat) (bs : Nat) : Option (List Nat) :=
  if (rstripNul msg).all (fun c => c < 128) then
    if bs = 0 then none else some (text2int msg bs)
  else none

/-- Model of dcrypt.py `encrypt(msg, key, block_size)` (lines 44-51) with
every error path modelled as `none`, in Python's evaluation order: first
the explicit `raise` when the declared key bit size `size` is not larger
than `block_size * 8`; then the `UnicodeEncodeError` / `ValueError`
raised inside `text2int` (non-ASCII message, `block_size = 0`); finally
`pow(block, e, 0)` raises `ValueError` when the modulus is `0` and at
least one block exists (an empty block list performs no `pow` call and
returns `[]`). -/
def dcrypt_encrypt (msg : List Nat) (key : Nat × Nat × Nat) (bs : Nat) :
    Option (List Nat) :=
  if key.2.2 ≤ bs * 8 then none
  else
    (text2intChecked msg bs).bind (fun blocks =>
      if key.1 = 0 ∧ blocks ≠ [] then none
      else some (blocks.map (fun b => pow_mod b key.2.1 key.1)))

/-- C6 counterexample: the claim quantifies over every message, key and
blockSize, but `encrypt("a", (5, 3, 100), 0)` raises — `text2int` calls
`range(0, len(msg), 0)`, whose zero step raises `ValueError` — even
though the declared bit size `100` exceeds `blockSize * 8 = 0`, so
"raises iff `declaredBitSize ≤ blockSize * 8`" fails.  (A non-ASCII
message or a zero modulus with a nonempty message raises similarly.) -/
theorem C6_counterexample :
    dcrypt_encrypt [97] (5, 3, 100) 0 = none ∧ ¬ (100 ≤ 0 * 8) := by
  refine ⟨by decide, by decide⟩

/-- C6 (amended): for every ASCII message, every three-component key
`(modulus, exponent, declaredBitSize)` with nonzero modulus, and every
`blockSize ≥ 1`, dcrypt.py `encrypt` raises exactly when the declared key
bit size is at most `blockSize * 8`; when it does not raise it returns
the per-block values `pow(block, e, n)`. -/
theorem C6_encrypt_guard (msg : List Nat) (n e size bs : Nat)
    (hascii : ∀ c ∈ msg, c < 128) (hn : n ≠ 0) (hbs : 1 ≤ bs) :
    (dcrypt_encrypt msg (n, e, size) bs = none ↔ size ≤ bs * 8)
    ∧ (bs * 8 < size →
        dcrypt_encrypt msg (n, e, size) bs
          = some ((text2int msg bs).map (fun b => b ^ e % n))) := by
  have hall : ((rstripNul msg).all fun c => decide (c < 128)) = true := by
    rw [List.all_eq_true]
    intro c hc
    exact decide_eq_true (hascii c (mem_rstripNul hc))
  have hchecked : text2intChecked msg bs = some (text2int msg bs) := by
    unfold text2intChecked
    rw [if_pos hall, if_neg (by omega : ¬ bs = 0)]
  have hne0 : ¬ (n = 0 ∧ text2int msg bs ≠ []) := fun hc => hn hc.1
  have heval : ¬ (size ≤ bs * 8) →
      dcrypt_encrypt msg (n, e, size) bs
        = some ((text2int msg bs).map (fun b => pow_mod b e n)) := by
    intro hgt
    unfold dcrypt_encrypt
    rw [if_neg (show ¬ ((n, e, size).2.2 ≤ bs * 8) from hgt), hchecked,
      Option.some_bind, if_neg hne0]
  refine ⟨⟨?_, ?_⟩, ?_⟩
  · intro hnone
    by_contra hgt
    rw [heval hgt] at hnone
    exact Option.some_ne_none _ hnone
  · intro hle
    unfold dcrypt_encrypt
    rw [if_pos (show (n, e, size).2.2 ≤ bs * 8 from hle)]
  · intro hgt
    rw [heval (by omega)]
    simp [pow_mod_eq]

theorem C6_encrypt_guard_witness :
    (∀ c ∈ [104, 105], c < 128) ∧ (323 : Nat) ≠ 0 ∧ 1 ≤ 1
    ∧ dcrypt_encrypt [104, 105] (323, 65537, 8) 1 = none
    ∧ (1 * 8 < 10 →
        dcrypt_encrypt [104, 105] (323, 65537, 10) 1
          = some ((text2int [104, 105] 1).map (fun b => b ^ 65537 % 323))) :=
  ⟨by decide, by decide, by decide,
    (C6_encrypt_guard [104, 105] 323 65537 8 1 (by decide) (by decide)
      (by decide)).1.mpr (by decide),
    (C6_encrypt_guard [104, 105] 323 65537 10 1 (by decide) (by decide)
      (by decide)).2⟩

/-! ## Modular inverse (maths.py `multinv`, lines 91-110) -/

/-- State of the extended-Euclid loop in maths.py `multinv`: the Python
locals `a, b, x, lastx`. -/
structure EuclidState where
  a : Int
  b : Int
  x : Int
  lastx : Int
deriving Repr, DecidableEq

/-- One iteration of the loop body
`a, q, b = b, a // b, a % b; x, lastx = lastx - q * x, x`, with Python's
floor division and floor modulus (`Int.fdiv` / `Int.fmod`). -/
def euclidStep (s : EuclidState) : EuclidState :=
  ⟨s.b, s.a.fmod s.b, s.lastx - (s.a.fdiv s.b) * s.x, s.x⟩

/-- The `while b:` loop of `multinv`, fuelled; `|b| + 1` fuel is always
sufficient because `|a % b|` strictly decreases (see
`multinvLoop_reaches_zero`). -/
def multinvLoop : Nat → EuclidState → EuclidState
  | 0, s => s
  | fuel+1, s => if s.b = 0 then s else multinvLoop fuel (euclidStep s)

/-- Model of maths.py `multinv(mod, val)`: run the extended-Euclid loop
from `a, b, x, lastx = mod, val, 0, 1`, then return
`result = (1 - lastx * mod) // val`, normalised by `+ mod` when negative.
`none` models the `ZeroDivisionError` that the final division raises when
`val = 0` (the loop itself never divides by zero, being guarded by
`while b:`). -/
def multinv (m v : Int) : Option Int :=
  if v = 0 then none else
  let f := multinvLoop (v.natAbs + 1) ⟨m, v, 0, 1⟩
  let result := (1 - f.lastx * m).fdiv v
  some (if result < 0 then result + m else result)

theorem natAbs_fmod_lt (a b : Int) (hb : b ≠ 0) :
    (Int.fmod a b).natAbs < b.natAbs := by
  cases a with
  | ofNat m =>
    cases b with
    | ofNat n =>
      have hn : n ≠ 0 := by
        intro h
        exact hb (by simp [h])
      have he : (Int.ofNat m).fmod (Int.ofNat n) = Int.ofNat (m % n) :=
        (Int.ofNat_fmod m n).symm
      rw [he]
      exact Nat.mod_lt _ (by omega)
    | negSucc n =>
      cases m with
      | zero =>
        rw [show ((Int.ofNat 0) : Int) = 0 from rfl, Int.zero_fmod]
        simp [Int.natAbs_negSucc]
      | succ m' =>
        have he : Int.fmod (Int.ofNat (m' + 1)) (Int.negSucc n)
            = Int.subNatNat (m' % (n + 1)) n := rfl
        rw [he, Int.subNatNat_eq_coe]
        have hlt : m' % (n + 1) < n + 1 := Nat.mod_lt _ (by omega)
        have hna : (Int.negSucc n).natAbs = n + 1 := rfl
        rw [hna]
        omega
  | negSucc m =>
    cases b with
    | ofNat n =>
      have hn : n ≠ 0 := by
        intro h
        exact hb (by simp [h])
      obtain ⟨n', rfl⟩ : ∃ n', n = n' + 1 := ⟨n - 1, by omega⟩
      have he : Int.fmod (Int.negSucc m) (Int.ofNat (n' + 1))
          = Int.subNatNat (n' + 1) (m % (n' + 1) + 1) := rfl
      rw [he, Int.subNatNat_eq_coe]
      have hlt : m % (n' + 1) < n' + 1 := Nat.mod_lt _ (by omega)
      have hna : (Int.ofNat (n' + 1)).natAbs = n' + 1 := rfl
      rw [hna]
      omega
    | negSucc n =>
      have he : Int.fmod (Int.negSucc m) (Int.negSucc n)
          = -Int.ofNat ((m + 1) % (n + 1)) := rfl
      have hlt : (m + 1) % (n + 1) < n + 1 := Nat.mod_lt _ (by omega)
      have hna : (Int.negSucc n).natAbs = n + 1 := rfl
      have hval : (-Int.ofNat ((m + 1) % (n + 1))).natAbs = (m + 1) % (n + 1) := by
        rw [Int.natAbs_neg]
        rfl
      rw [he, hval, hna]
      exact hlt

theorem multinvLoop_reaches_zero :
    ∀ (fuel : Nat) (s : EuclidState), s.b.natAbs < fuel →
    (multinvLoop fuel s).b = 0 := by
  intro fuel
  induction fuel with
  | zero => intro s h; omega
  | succ fuel ih =>
    intro s h
    by_cases hb : s.b = 0
    · simp [multinvLoop, hb]
    · have hlt : (euclidStep s).b.natAbs < fuel := by
        have hdec := natAbs_fmod_lt s.a s.b hb
        have hstep : (euclidStep s).b = s.a.fmod s.b := rfl
        rw [hstep]
        omega
      rw [show multinvLoop (fuel+1) s = multinvLoop fuel (euclidStep s) from by
        simp [multinvLoop, hb]]
      exact ih _ hlt

theorem multinvLoop_b_zero (fuel : Nat) (s : EuclidState) (h : s.b = 0) :
    multinvLoop fuel s = s := by
  cases fuel <;> simp [multinvLoop, h]

theorem abs_sub_mul_of_sign (u t q : Int) (hq : 0 ≤ q) (hs : u * t ≤ 0) :
    |u - q * t| = |u| + q * |t| := by
  rcases le_or_lt 0 u with hu | hu
  · have ht' : u = 0 ∨ t ≤ 0 := by
      by_contra hc
      push_neg at hc
      obtain ⟨h1, h2⟩ := hc
      have hupos : 0 < u := lt_of_le_of_ne hu (Ne.symm h1)
      nlinarith [mul_pos hupos h2]
    rcases ht' with rfl | ht'
    · simp [abs_mul, abs_of_nonneg hq]
    · have hqt : q * t ≤ 0 := mul_nonpos_of_nonneg_of_nonpos hq ht'
      have h1 : 0 ≤ u - q * t := by linarith
      rw [abs_of_nonneg h1, abs_of_nonneg hu, abs_of_nonpos ht']
      ring
  · have ht' : 0 ≤ t := by
      by_contra hc
      push_neg at hc
      nlinarith [mul_pos_of_neg_of_neg hu hc]
    have hqt : 0 ≤ q * t := mul_nonneg hq ht'
    have h1 : u - q * t ≤ 0 := by linarith
    rw [abs_of_nonpos h1, abs_of_nonpos (le_of_lt hu), abs_of_nonneg ht']
    ring

theorem int_gcd_add_mul (b a c : Int) : Int.gcd b (a + c * b) = Int.gcd b a := by
  apply Nat.dvd_antisymm
  · have h1 : (↑(Int.gcd b (a + c * b)) : Int) ∣ b := Int.gcd_dvd_left
    have h2 : (↑(Int.gcd b (a + c * b)) : Int) ∣ a + c * b := Int.gcd_dvd_right
    have h3 : (↑(Int.gcd b (a + c * b)) : Int) ∣ a := by
      have hsub := dvd_sub h2 (h1.mul_left c)
      simpa using hsub
    exact Int.natCast_dvd_natCast.mp (Int.dvd_gcd h1 h3)
  · have h1 : (↑(Int.gcd b a) : Int) ∣ b := Int.gcd_dvd_left
    have h2 : (↑(Int.gcd b a) : Int) ∣ a := Int.gcd_dvd_right
    exact Int.natCast_dvd_natCast.mp
      (Int.dvd_gcd h1 (dvd_add h2 (h1.mul_left c)))

/-- Invariant of the extended-Euclid loop started from
`⟨m0, v0, 0, 1⟩`: the remainders stay positive/non-negative, the gcd is
preserved, and the tracked coefficient pair `(lastx, x)` has Bezout
companions `(u, t)` for `v0` whose sizes are controlled by the identity
`|u|·b + |t|·a = m0`. -/
def EuclidInv (m0 v0 : Int) (s : EuclidState) : Prop :=
  1 ≤ s.a ∧ 0 ≤ s.b ∧ Int.gcd s.a s.b = Int.gcd m0 v0 ∧
  ∃ u t : Int, s.lastx * m0 + u * v0 = s.a ∧ s.x * m0 + t * v0 = s.b ∧
    |u| * s.b + |t| * s.a = m0 ∧ u * t ≤ 0

theorem euclidInv_step {m0 v0 : Int} {s : EuclidState}
    (hInv : EuclidInv m0 v0 s) (hb : s.b ≠ 0) :
    EuclidInv m0 v0 (euclidStep s) := by
  obtain ⟨ha, hb0, hg, u, t, hu, ht, habs, hsign⟩ := hInv
  have hbpos : 0 < s.b := lt_of_le_of_ne hb0 (Ne.symm hb)
  have hq : 0 ≤ s.a.fdiv s.b := Int.fdiv_nonneg (by omega) (by omega)
  have hr0 : 0 ≤ s.a.fmod s.b := Int.fmod_nonneg' s.a hbpos
  have hrlt : s.a.fmod s.b < s.b := Int.fmod_lt_of_pos s.a hbpos
  have hfd : s.a.fmod s.b = s.a - s.b * (s.a.fdiv s.b) := Int.fmod_def s.a s.b
  refine ⟨by show 1 ≤ s.b; omega, by show 0 ≤ s.a.fmod s.b; omega, ?_, ?_⟩
  · show Int.gcd s.b (s.a.fmod s.b) = Int.gcd m0 v0
    rw [show s.a.fmod s.b = s.a + (-(s.a.fdiv s.b)) * s.b from by rw [hfd]; ring,
      int_gcd_add_mul, Int.gcd_comm, hg]
  · refine ⟨t, u - (s.a.fdiv s.b) * t, ht, ?_, ?_, ?_⟩
    · show (s.lastx - (s.a.fdiv s.b) * s.x) * m0 + (u - (s.a.fdiv s.b) * t) * v0
        = s.a.fmod s.b
      rw [hfd]
      linear_combination hu - (s.a.fdiv s.b) * ht
    · show |t| * (s.a.fmod s.b) + |u - (s.a.fdiv s.b) * t| * s.b = m0
      rw [hfd, abs_sub_mul_of_sign u t _ hq hsign]
      linear_combination habs
    · show t * (u - (s.a.fdiv s.b) * t) ≤ 0
      have h1 : 0 ≤ (s.a.fdiv s.b) * (t * t) := mul_nonneg hq (mul_self_nonneg t)
      nlinarith [hsign]

theorem multinvLoop_spec (m0 v0 : Int) :
    ∀ (fuel : Nat) (s : EuclidState),
    EuclidInv m0 v0 s → s.b ≠ 0 → s.b.natAbs < fuel →
    EuclidInv m0 v0 (multinvLoop fuel s) ∧ (multinvLoop fuel s).b = 0 ∧
    ∃ u : Int, (multinvLoop fuel s).lastx * m0 + u * v0 = (multinvLoop fuel s).a
      ∧ |u| ≤ m0 := by
  intro fuel
  induction fuel with
  | zero => intro s _ _ h; omega
  | succ fuel ih =>
    intro s hInv hb hfuel
    have hstep : multinvLoop (fuel+1) s = multinvLoop fuel (euclidStep s) := by
      simp [multinvLoop, hb]
    have hInv' := euclidInv_step hInv hb
    by_cases hb' : (euclidStep s).b = 0
    · rw [hstep, multinvLoop_b_zero _ _ hb']
      refine ⟨hInv', hb', ?_⟩
      obtain ⟨ha, hb0, hg, u, t, hu, ht, habs, hsign⟩ := hInv
      refine ⟨t, ht, ?_⟩
      have h1 : |t| * 1 ≤ |t| * s.a := mul_le_mul_of_nonneg_left ha (abs_nonneg t)
      have h2 : |t| * s.a ≤ m0 := by
        have h3 : 0 ≤ |u| * s.b := mul_nonneg (abs_nonneg u) hb0
        linarith
      linarith
    · have hfu : (euclidStep s).b.natAbs < fuel := by
        have hdec := natAbs_fmod_lt s.a s.b hb
        have hsb : (euclidStep s).b = s.a.fmod s.b := rfl
        rw [hsb]
        omega
      rw [hstep]
      exact ih (euclidStep s) hInv' hb' hfu

/-- Core correctness of `multinv` on coprime inputs with positive value:
the returned integer lies in `[0, mod)` and is a modular inverse. -/
theorem multinv_correct (m0 v0 : Int) (hm : 1 < m0) (hv : 0 < v0)
    (hg : Int.gcd m0 v0 = 1) :
    ∃ r : Int, multinv m0 v0 = some r ∧ 0 ≤ r ∧ r < m0 ∧ (v0 * r).fmod m0 = 1 := by
  have hInv0 : EuclidInv m0 v0 ⟨m0, v0, 0, 1⟩ := by
    refine ⟨by show 1 ≤ m0; omega, by show 0 ≤ v0; omega, rfl, 0, 1, ?_, ?_, ?_, ?_⟩
    · show 1 * m0 + 0 * v0 = m0; ring
    · show 0 * m0 + 1 * v0 = v0; ring
    · show |(0:Int)| * v0 + |(1:Int)| * m0 = m0; simp
    · show (0:Int) * 1 ≤ 0; simp
  obtain ⟨hInvf, hbf, u, hu, hub⟩ :=
    multinvLoop_spec m0 v0 (v0.natAbs + 1) ⟨m0, v0, 0, 1⟩ hInv0
      (by show v0 ≠ 0; omega) (by show v0.natAbs < v0.natAbs + 1; omega)
  obtain ⟨haf, -, hgf, -⟩ := hInvf
  have hfa1 : (multinvLoop (v0.natAbs + 1) ⟨m0, v0, 0, 1⟩).a = 1 := by
    have hgg := hgf
    rw [hbf, Int.gcd_zero_right, hg] at hgg
    omega
  rw [hfa1] at hu
  have hkey : u * v0 = 1 - (multinvLoop (v0.natAbs + 1) ⟨m0, v0, 0, 1⟩).lastx * m0 := by
    linarith
  have hres : (1 - (multinvLoop (v0.natAbs + 1) ⟨m0, v0, 0, 1⟩).lastx * m0).fdiv v0 = u := by
    rw [← hkey, Int.mul_fdiv_cancel _ (by omega)]
  have hunf : multinv m0 v0 = some (if u < 0 then u + m0 else u) := by
    unfold multinv
    rw [if_neg (by omega : ¬ v0 = 0)]
    simp only [hres]
  have hdvd1 : ¬ (m0 ∣ 1) := by
    intro hd
    have := Int.le_of_dvd one_pos hd
    omega
  have hne1 : u ≠ m0 := by
    intro h
    rw [h] at hkey
    exact hdvd1 ⟨v0 + (multinvLoop (v0.natAbs + 1) ⟨m0, v0, 0, 1⟩).lastx, by linarith⟩
  have hne2 : u ≠ -m0 := by
    intro h
    rw [h] at hkey
    exact hdvd1 ⟨(multinvLoop (v0.natAbs + 1) ⟨m0, v0, 0, 1⟩).lastx - v0, by linarith⟩
  have habsle := abs_le.mp hub
  have hrange1 : -m0 < u := by
    rcases lt_or_eq_of_le habsle.1 with h | h
    · exact h
    · exact absurd h.symm hne2
  have hrange2 : u < m0 := by
    rcases lt_or_eq_of_le habsle.2 with h | h
    · exact h
    · exact absurd h hne1
  have hm0 : (0:Int) ≤ m0 := by omega
  have hcong : ∀ w : Int, v0 * w = u * v0 + (w - u) * v0 := by intro w; ring
  refine ⟨if u < 0 then u + m0 else u, hunf, ?_, ?_, ?_⟩
  · by_cases hu0 : u < 0
    · rw [if_pos hu0]; omega
    · rw [if_neg hu0]; omega
  · by_cases hu0 : u < 0
    · rw [if_pos hu0]; omega
    · rw [if_neg hu0]; omega
  · rw [Int.fmod_eq_emod _ hm0]
    by_cases hu0 : u < 0
    · rw [if_pos hu0]
      have he : v0 * (u + m0)
          = (1 + (-(multinvLoop (v0.natAbs + 1) ⟨m0, v0, 0, 1⟩).lastx) * m0) + v0 * m0 := by
        rw [show v0 * (u + m0) = u * v0 + v0 * m0 from by ring, hkey]
        ring
      rw [he, Int.add_mul_emod_self, Int.add_mul_emod_self,
        Int.emod_eq_of_lt (by omega) (by omega)]
    · rw [if_neg hu0]
      have he : v0 * u
          = 1 + (-(multinvLoop (v0.natAbs + 1) ⟨m0, v0, 0, 1⟩).lastx) * m0 := by
        rw [show v0 * u = u * v0 from by ring, hkey]
        ring
      rw [he, Int.add_mul_emod_self,
        Int.emod_eq_of_lt (by omega) (by omega)]

/-- C4 counterexample: the claim quantifies over every integer pair with
`gcd(modulus, value) = 1` and `modulus > 1`, but for the negative value
`-3` with modulus `11` the code returns `3`, and `(-3 * 3) mod 11 = 2`,
not `1` (Python's floor-mod is `Int.fmod`).  The floor divisions make the
final exact division `(1 - lastx*mod) // val` inexact when `val < 0`. -/
theorem C4_counterexample :
    Int.gcd 11 (-3) = 1 ∧ (1:Int) < 11 ∧ multinv 11 (-3) = some 3
      ∧ ((-3 : Int) * 3).fmod 11 ≠ 1 := by
  refine ⟨by decide, by decide, by decide, by decide⟩

/-- C4 (amended): for every pair `(modulus, value)` with
`gcd(modulus, value) = 1`, `modulus > 1` and `value > 0`, `multinv`
returns `x ∈ [0, modulus)` with `(value * x) mod modulus = 1`; in
particular `multinv 11 3 = 4`. -/
theorem C4_multinv_inverse :
    (∀ m v : Int, 1 < m → 0 < v → Int.gcd m v = 1 →
      ∃ r, multinv m v = some r ∧ 0 ≤ r ∧ r < m ∧ (v * r).fmod m = 1)
    ∧ multinv 11 3 = some 4 :=
  ⟨fun m v hm hv hg => multinv_correct m v hm hv hg, by decide⟩

theorem C4_multinv_inverse_witness :
    (1:Int) < 11 ∧ (0:Int) < 3 ∧ Int.gcd 11 3 = 1
      ∧ ∃ r, multinv 11 3 = some r ∧ 0 ≤ r ∧ r < 11 ∧ ((3:Int) * r).fmod 11 = 1 :=
  ⟨by decide, by decide, by decide,
    C4_multinv_inverse.1 11 3 (by decide) (by decide) (by decide)⟩

/-- C10: the extended-Euclid loop of `multinv` always reaches `b = 0`
(within `|val| + 1` iterations) for every modulus and every nonzero
value, and `multinv` fails (ZeroDivisionError, modelled by `none`)
exactly when `value = 0`. -/
theorem C10_multinv_terminates :
    (∀ m v : Int, v ≠ 0 → (multinvLoop (v.natAbs + 1) ⟨m, v, 0, 1⟩).b = 0)
    ∧ ∀ m v : Int, multinv m v = none ↔ v = 0 := by
  constructor
  · intro m v hv
    apply multinvLoop_reaches_zero
    show v.natAbs < v.natAbs + 1
    omega
  · intro m v
    constructor
    · intro h
      by_contra hv
      unfold multinv at h
      rw [if_neg hv] at h
      simp at h
    · intro h
      subst h
      rfl

theorem C10_multinv_terminates_witness :
    (-7 : Int) ≠ 0 ∧ (multinvLoop ((-7 : Int).natAbs + 1) ⟨5, -7, 0, 1⟩).b = 0
      ∧ (multinv 5 0 = none ↔ (0:Int) = 0) :=
  ⟨by decide, C10_multinv_terminates.1 5 (-7) (by decide),
    C10_multinv_terminates.2 5 0⟩

/-! ## Primality testing (maths.py `prime_sieve`, `rabin_miller`,
`is_prime`) -/

/-- Upward-scanning integer square root: the largest `i` with
`i * i ≤ n`, which is the value of Python's `int(math.sqrt(n))` for the
only size this model evaluates it at (`n = 1000`, giving `31`). -/
def isqrtLoop : Nat → Nat → Nat → Nat
  | 0, _, i => i
  | f+1, n, i => if (i+1)*(i+1) ≤ n then isqrtLoop f n (i+1) else i

/-- Integer square root with `n` as (always sufficient) fuel. -/
def intSqrt (n : Nat) : Nat := isqrtLoop n n 0

/-- Model of maths.py `prime_sieve(size)` (lines 17-29).  The destructive
marking loop (`pointer = i * 2; while pointer < size:
sieve[pointer] = False; pointer += i`, for `i` in
`range(2, int(math.sqrt(size)) + 1)`) sets exactly the cells
`{i * m | m ≥ 2, i * m < size}` to `False`, and `sieve[0:2]` is cleared
beforehand; the boolean array is modelled by that characterization of its
final contents: index `j` survives iff `2 ≤ j` and no `i` in the range
has a multiple `i * m` (`m ≥ 2`) equal to `j`, i.e.
`¬(i ∣ j ∧ 2 * i ≤ j)`. -/
def prime_sieve (size : Nat) : List Nat :=
  (List.range size).filter (fun j =>
    decide (2 ≤ j) &&
      !((List.range' 2 (intSqrt size - 1)).any (fun i => j % i = 0 && 2 * i ≤ j)))

/-- maths.py line 56: the process-wide small-prime table. -/
def FIRST_FEW_PRIMES : List Nat := prime_sieve 1000

set_option maxRecDepth 10000 in
theorem FIRST_FEW_PRIMES_eq : FIRST_FEW_PRIMES = [2, 3, 5, 7, 11, 13, 17, 19, 23, 29, 31, 37, 41, 43, 47, 53, 59, 61, 67, 71, 73, 79, 83, 89, 97, 101, 103, 107, 109, 113, 127, 131, 137, 139, 149, 151, 157, 163, 167, 173, 179, 181, 191, 193, 197, 199, 211, 223, 227, 229, 233, 239, 241, 251, 257, 263, 269, 271, 277, 281, 283, 293, 307, 311, 313, 317, 331, 337, 347, 349, 353, 359, 367, 373, 379, 383, 389, 397, 401, 409, 419, 421, 431, 433, 439, 443, 449, 457, 461, 463, 467, 479, 487, 491, 499, 503, 509, 521, 523, 541, 547, 557, 563, 569, 571, 577, 587, 593, 599, 601, 607, 613, 617, 619, 631, 641, 643, 647, 653, 659, 661, 673, 677, 683, 691, 701, 709, 719, 727, 733, 739, 743, 751, 757, 761, 769, 773, 787, 797, 809, 811, 821, 823, 827, 829, 839, 853, 857, 859, 863, 877, 881, 883, 887, 907, 911, 919, 929, 937, 941, 947, 953, 967, 971, 977, 983, 991, 997] := by decide

/-- The `while d % 2 == 0: d //= 2; r += 1` loop of `rabin_miller`
(maths.py lines 36-40), fuelled: returns `(d', r)` with the odd part and
the 2-adic valuation.  (For input `0`, i.e. `rabin_miller(1, _)`, the
Python loop diverges; `is_prime` never reaches that call.) -/
def evenFactor : Nat → Nat → Nat × Nat
  | 0, d => (d, 0)
  | f+1, d =>
    if d % 2 = 0 then
      let p := evenFactor f (d / 2)
      (p.1, p.2 + 1)
    else (d, 0)

/-- The witness loop of `rabin_miller` (maths.py lines 47-53): starting
from `x` with `j` squarings left (`j = r - 1` at entry, matching the
`if i == (r-1): return False` bound), succeed as soon as `x = n - 1`. -/
def mrWitnessLoop (n : Nat) : Nat → Nat → Bool
  | x, j =>
    if x = n - 1 then true
    else
      match j with
      | 0 => false
      | j+1 => mrWitnessLoop n (x * x % n) j

/-- Model of maths.py `rabin_miller(n, k)` (lines 31-54) with the random
base draws made explicit: `bases` is the list of the `k` drawn witnesses
(each `random.randrange(2, n-1)`, i.e. in `[2, n-2]`).  A round passes
when `x = pow(a, d, n)` equals `1`, or the witness loop reaches `n - 1`
within `r - 1` squarings. -/
def rabinMiller (n : Nat) (bases : List Nat) : Bool :=
  let dr := evenFactor (n-1) (n-1)
  bases.all (fun a =>
    let x := pow_mod a dr.1 n
    if x = 1 then true else mrWitnessLoop n x (dr.2 - 1))

/-- Model of maths.py `is_prime(n)` (lines 58-72) with the Miller-Rabin
base draws made explicit.  `n < 2` is rejected, members of the
small-prime table are accepted, multiples of its entries rejected, and
otherwise `rabin_miller` decides. -/
def is_prime_with (n : Nat) (bases : List Nat) : Bool :=
  if n < 2 then false
  else if FIRST_FEW_PRIMES.contains n then true
  else if FIRST_FEW_PRIMES.any (fun p => n % p = 0) then false
  else rabinMiller n bases

theorem evenFactor_spec :
    ∀ (fuel m : Nat), 1 ≤ m → m ≤ fuel →
    m = 2 ^ (evenFactor fuel m).2 * (evenFactor fuel m).1
      ∧ (evenFactor fuel m).1 % 2 = 1 := by
  intro fuel
  induction fuel with
  | zero => intro m h1 h2; omega
  | succ fuel ih =>
    intro m h1 h2
    by_cases he : m % 2 = 0
    · have hm2 : 2 ≤ m := by omega
      have hd1 : 1 ≤ m / 2 := by omega
      have hd2 : m / 2 ≤ fuel := by omega
      obtain ⟨hfac, hodd⟩ := ih (m / 2) hd1 hd2
      have hstep : evenFactor (fuel+1) m
          = ((evenFactor fuel (m / 2)).1, (evenFactor fuel (m / 2)).2 + 1) := by
        simp [evenFactor, he]
      rw [hstep]
      constructor
      · show m = 2 ^ ((evenFactor fuel (m / 2)).2 + 1) * (evenFactor fuel (m / 2)).1
        calc m = 2 * (m / 2) := by omega
          _ = 2 * (2 ^ (evenFactor fuel (m / 2)).2 * (evenFactor fuel (m / 2)).1) := by
              nth_rewrite 1 [hfac]
              rfl
          _ = 2 ^ ((evenFactor fuel (m / 2)).2 + 1) * (evenFactor fuel (m / 2)).1 := by
              ring
      · exact hodd
    · have hstep : evenFactor (fuel+1) m = (m, 0) := by
        simp [evenFactor, he]
      rw [hstep]
      constructor
      · simp
      · omega

theorem exists_neg_one_pow {p : Nat} [Fact p.Prime] (α : ZMod p)
    (d : Nat) :
    ∀ r : Nat, α ^ (2 ^ r * d) = 1 → α ^ d ≠ 1 → ∃ i < r, α ^ (2 ^ i * d) = -1 := by
  intro r
  induction r with
  | zero =>
    intro h1 hne
    simp only [pow_zero, one_mul] at h1
    exact absurd h1 hne
  | succ r ih =>
    intro h1 hne
    have hββ : α ^ (2 ^ r * d) * α ^ (2 ^ r * d) = 1 := by
      rw [← pow_add]
      rw [show 2 ^ r * d + 2 ^ r * d = 2 ^ (r + 1) * d from by ring]
      exact h1
    rcases mul_self_eq_one_iff.mp hββ with hone | hnegone
    · obtain ⟨i, hi, hv⟩ := ih hone hne
      exact ⟨i, Nat.lt_succ_of_lt hi, hv⟩
    · exact ⟨r, Nat.lt_succ_self r, hnegone⟩

theorem val_neg_one_of_lt {n : Nat} (hn : 1 < n) : (-1 : ZMod n).val = n - 1 := by
  haveI : NeZero n := ⟨by omega⟩
  have hcast : (-1 : ZMod n) = ((n - 1 : Nat) : ZMod n) := by
    have h1 : ((n - 1 : Nat) : ZMod n) = (n : ZMod n) - 1 := by
      push_cast [Nat.cast_sub (by omega : 1 ≤ n)]
      ring
    rw [h1, ZMod.natCast_self]
    ring
  rw [hcast, ZMod.val_natCast, Nat.mod_eq_of_lt (by omega)]

theorem mrWitnessLoop_of_pow {n : Nat} (hn : 2 < n) :
    ∀ (j : Nat) (β : ZMod n), (∃ i ≤ j, β ^ (2 ^ i) = -1) →
    mrWitnessLoop n β.val j = true := by
  haveI : NeZero n := ⟨by omega⟩
  intro j
  induction j with
  | zero =>
    intro β h
    obtain ⟨i, hi, hv⟩ := h
    have hi0 : i = 0 := by omega
    rw [hi0] at hv
    simp only [pow_zero, pow_one] at hv
    rw [hv, mrWitnessLoop]
    rw [if_pos (val_neg_one_of_lt (by omega))]
  | succ j ih =>
    intro β h
    obtain ⟨i, hi, hv⟩ := h
    rw [mrWitnessLoop]
    by_cases hval : β.val = n - 1
    · rw [if_pos hval]
    · rw [if_neg hval]
      have hβne : β ≠ -1 := by
        intro hc
        rw [hc, val_neg_one_of_lt (by omega : 1 < n)] at hval
        exact hval rfl
      obtain ⟨i', rfl⟩ : ∃ i', i = i' + 1 := by
        cases i with
        | zero =>
          simp only [pow_zero, pow_one] at hv
          exact absurd hv hβne
        | succ i' => exact ⟨i', rfl⟩
      have hmul : β.val * β.val % n = (β * β).val := (ZMod.val_mul β β).symm
      rw [hmul]
      apply ih (β * β)
      refine ⟨i', by omega, ?_⟩
      rw [show β * β = β ^ 2 from (sq β).symm, ← pow_mul]
      rw [show 2 * 2 ^ i' = 2 ^ (i' + 1) from by ring]
      exact hv

/-- Core fact shared by C9 and C5: Miller-Rabin never rejects an odd
prime, whatever bases in `[2, n-2]` are drawn. -/
theorem rabinMiller_prime (n : Nat) (hp : n.Prime) (hn5 : 5 ≤ n)
    (hodd : n % 2 = 1) (bases : List Nat)
    (hb : ∀ a ∈ bases, 2 ≤ a ∧ a ≤ n - 2) :
    rabinMiller n bases = true := by
  haveI := Fact.mk hp
  haveI : NeZero n := ⟨by omega⟩
  haveI : Fact (1 < n) := ⟨by omega⟩
  obtain ⟨hfac, hoddd⟩ := evenFactor_spec (n-1) (n-1) (by omega) le_rfl
  set d := (evenFactor (n-1) (n-1)).1 with hd
  set r := (evenFactor (n-1) (n-1)).2 with hr
  have hrpos : 1 ≤ r := by
    by_contra hc
    push_neg at hc
    interval_cases r
    · simp only [pow_zero, one_mul] at hfac
      omega
  unfold rabinMiller
  rw [List.all_eq_true]
  intro a ha
  obtain ⟨ha2, han2⟩ := hb a ha
  have haln : a < n := by omega
  set α : ZMod n := (a : ZMod n) with hα
  have hα0 : α ≠ 0 := by
    rw [hα]
    intro hc
    have hdvd := (ZMod.natCast_zmod_eq_zero_iff_dvd a n).mp hc
    have := Nat.le_of_dvd (by omega) hdvd
    omega
  have hcast : ∀ e : Nat, pow_mod a e n = (α ^ e).val := by
    intro e
    rw [pow_mod_eq, hα, ← Nat.cast_pow, ZMod.val_natCast]
  show (if pow_mod a d n = 1 then true
    else mrWitnessLoop n (pow_mod a d n) (r - 1)) = true
  by_cases hx1 : pow_mod a d n = 1
  · rw [if_pos hx1]
  · rw [if_neg hx1]
    have hαd : α ^ d ≠ 1 := by
      intro hc
      apply hx1
      rw [hcast d, hc, ZMod.val_one]
    have hflt : α ^ (2 ^ r * d) = 1 := by
      rw [← hfac]
      exact ZMod.pow_card_sub_one_eq_one hα0
    obtain ⟨i, hir, hneg⟩ := exists_neg_one_pow α d r hflt hαd
    rw [hcast d]
    apply mrWitnessLoop_of_pow (by omega)
    refine ⟨i, by omega, ?_⟩
    rw [← pow_mul]
    rw [show d * 2 ^ i = 2 ^ i * d from by ring]
    exact hneg

/-- C9: Miller-Rabin as implemented has no false negatives: for every odd
prime `n ≥ 5` and every sequence of bases drawn in `[2, n-2]` (any number
of rounds `k`), `rabin_miller(n, k)` returns `True`. -/
theorem C9_rabin_miller_accepts_primes (n : Nat) (hp : Nat.Prime n)
    (hn5 : 5 ≤ n) (hodd : n % 2 = 1) (bases : List Nat)
    (hb : ∀ a ∈ bases, 2 ≤ a ∧ a ≤ n - 2) :
    rabinMiller n bases = true :=
  rabinMiller_prime n hp hn5 hodd bases hb

theorem C9_rabin_miller_accepts_primes_witness :
    Nat.Prime 13 ∧ 5 ≤ 13 ∧ 13 % 2 = 1 ∧ (∀ a ∈ [2, 6, 11], 2 ≤ a ∧ a ≤ 13 - 2)
      ∧ rabinMiller 13 [2, 6, 11] = true :=
  ⟨by norm_num, by decide, by decide, by decide,
    C9_rabin_miller_accepts_primes 13 (by norm_num) (by decide) (by decide)
      [2, 6, 11] (by decide)⟩

/-! ## Concrete primality certificates (Pratt / Lucas) -/

theorem pow_mod_cast {p : Nat} (a e : Nat) :
    ((pow_mod a e p : Nat) : ZMod p) = (a : ZMod p) ^ e := by
  rw [pow_mod_eq, ZMod.natCast_mod, Nat.cast_pow]

/-- Lucas primality from kernel-checkable `pow_mod` computations: `a` is a
primitive-root witness, `qs` lists every prime divisor of `p - 1`. -/
theorem prime_of_pow_mod (p a : Nat) (hp1 : 1 < p) (qs : List Nat)
    (hcov : ∀ q : Nat, q.Prime → q ∣ p - 1 → q ∈ qs)
    (h1 : pow_mod a (p - 1) p = 1)
    (h2 : ∀ q ∈ qs, pow_mod a ((p - 1) / q) p ≠ 1) : p.Prime := by
  haveI : NeZero p := ⟨by omega⟩
  haveI : Fact (1 < p) := ⟨hp1⟩
  apply lucas_primality p (a : ZMod p)
  · have hc := congrArg (fun x : Nat => (x : ZMod p)) h1
    simp only at hc
    rw [pow_mod_cast] at hc
    simpa using hc
  · intro q hq hdvd
    have hne := h2 q (hcov q hq hdvd)
    intro hc
    apply hne
    have hcast : ((pow_mod a ((p - 1) / q) p : Nat) : ZMod p) = 1 := by
      rw [pow_mod_cast, hc]
    have hval := congrArg ZMod.val hcast
    have hlt : pow_mod a ((p - 1) / q) p < p := by
      rw [pow_mod_eq]
      exact Nat.mod_lt _ (by omega)
    rw [ZMod.val_natCast, Nat.mod_eq_of_lt hlt, ZMod.val_one] at hval
    exact hval

theorem prime_6823905667 : Nat.Prime 6823905667 := by
  apply prime_of_pow_mod 6823905667 2 (by norm_num) [2, 3, 61, 3061, 6091]
  · intro q hq hdvd
    have hprod : q ∣ 2 * (3 * (61 * (3061 * 6091))) := by
      rw [show 2 * (3 * (61 * (3061 * 6091))) = 6823905667 - 1 from by norm_num]
      exact hdvd
    have h2 : Nat.Prime 2 := by norm_num
    have h3 : Nat.Prime 3 := by norm_num
    have h61 : Nat.Prime 61 := by norm_num
    have h3061 : Nat.Prime 3061 := by norm_num
    have h6091 : Nat.Prime 6091 := by norm_num
    rcases (Nat.Prime.dvd_mul hq).mp hprod with h | h
    · simp [(Nat.prime_dvd_prime_iff_eq hq h2).mp h]
    rcases (Nat.Prime.dvd_mul hq).mp h with h | h
    · simp [(Nat.prime_dvd_prime_iff_eq hq h3).mp h]
    rcases (Nat.Prime.dvd_mul hq).mp h with h | h
    · simp [(Nat.prime_dvd_prime_iff_eq hq h61).mp h]
    rcases (Nat.Prime.dvd_mul hq).mp h with h | h
    · simp [(Nat.prime_dvd_prime_iff_eq hq h3061).mp h]
    · simp [(Nat.prime_dvd_prime_iff_eq hq h6091).mp h]
  · decide
  · intro q hq
    fin_cases hq <;> decide

theorem prime_109182490673 : Nat.Prime 109182490673 := by
  apply prime_of_pow_mod 109182490673 3 (by norm_num) [2, 6823905667]
  · intro q hq hdvd
    have hprod : q ∣ 2 ^ 4 * 6823905667 := by
      rw [show 2 ^ 4 * 6823905667 = 109182490673 - 1 from by norm_num]
      exact hdvd
    have h2 : Nat.Prime 2 := by norm_num
    rcases (Nat.Prime.dvd_mul hq).mp hprod with h | h
    · simp [(Nat.prime_dvd_prime_iff_eq hq h2).mp (hq.dvd_of_dvd_pow h)]
    · simp [(Nat.prime_dvd_prime_iff_eq hq prime_6823905667).mp h]
  · decide
  · intro q hq
    fin_cases hq <;> decide

/-- C5: `is_prime(109182490673)` is `True` for every sequence of
Miller-Rabin base draws; `is_prime(4)`, `is_prime(1)` are `False` and
`is_prime(17)` is `True` regardless of the draws (settled by the
small-prime set and trial division before any randomness is used). -/
theorem C5_is_prime_values :
    (∀ bases : List Nat, (∀ a ∈ bases, 2 ≤ a ∧ a ≤ 109182490671) →
      is_prime_with 109182490673 bases = true)
    ∧ (∀ bases : List Nat, is_prime_with 4 bases = false)
    ∧ (∀ bases : List Nat, is_prime_with 1 bases = false)
    ∧ (∀ bases : List Nat, is_prime_with 17 bases = true) := by
  refine ⟨?_, ?_, ?_, ?_⟩
  · intro bases hb
    have hc3 : FIRST_FEW_PRIMES.any (fun p => 109182490673 % p = 0) = false := by
      rw [FIRST_FEW_PRIMES_eq]
      decide
    unfold is_prime_with
    rw [if_neg (by norm_num),
      if_neg (show ¬ (FIRST_FEW_PRIMES.contains 109182490673 = true) from by
        rw [FIRST_FEW_PRIMES_eq]; decide),
      if_neg (by simp [hc3])]
    exact rabinMiller_prime 109182490673 prime_109182490673 (by norm_num)
      (by norm_num) bases
      (fun a ha => ⟨(hb a ha).1, by have := (hb a ha).2; omega⟩)
  · intro bases
    have hc3 : FIRST_FEW_PRIMES.any (fun p => 4 % p = 0) = true := by
      rw [FIRST_FEW_PRIMES_eq]
      decide
    unfold is_prime_with
    rw [if_neg (by norm_num),
      if_neg (show ¬ (FIRST_FEW_PRIMES.contains 4 = true) from by
        rw [FIRST_FEW_PRIMES_eq]; decide),
      if_pos (by simp [hc3])]
  · intro bases
    unfold is_prime_with
    rw [if_pos (by norm_num)]
  · intro bases
    unfold is_prime_with
    rw [if_neg (by norm_num),
      if_pos (show FIRST_FEW_PRIMES.contains 17 = true from by
        rw [FIRST_FEW_PRIMES_eq]; decide)]

theorem C5_is_prime_values_witness :
    (∀ a ∈ [2, 3, 5, 7, 11], 2 ≤ a ∧ a ≤ 109182490671)
    ∧ is_prime_with 109182490673 [2, 3, 5, 7, 11] = true
    ∧ is_prime_with 4 [2, 2, 2, 2, 2] = false
    ∧ is_prime_with 1 [2, 2, 2, 2, 2] = false
    ∧ is_prime_with 17 [2, 3, 5, 7, 11] = true :=
  ⟨by decide, C5_is_prime_values.1 [2, 3, 5, 7, 11] (by decide),
    C5_is_prime_values.2.1 [2, 2, 2, 2, 2],
    C5_is_prime_values.2.2.1 [2, 2, 2, 2, 2],
    C5_is_prime_values.2.2.2 [2, 3, 5, 7, 11]⟩

/-! ## Key generation (crypt.py `generate_key_pair`) and RSA round trip -/

theorem rsa_pow_congr {p q e d : Nat} (hp : p.Prime) (hq : q.Prime)
    (hne : p ≠ q) (hed : (e * d) % ((p - 1) * (q - 1)) = 1) (v : Nat) :
    v ^ (e * d) ≡ v [MOD p * q] := by
  have hed1 : 1 ≤ e * d := by
    by_contra hc
    push_neg at hc
    have h0 : e * d = 0 := by omega
    rw [h0, Nat.zero_mod] at hed
    exact absurd hed (by omega)
  set s := (e * d) / ((p - 1) * (q - 1)) with hs
  have hsplit : e * d = 1 + ((p - 1) * (q - 1)) * s := by
    have hdm := Nat.div_add_mod (e * d) ((p - 1) * (q - 1))
    rw [← hs] at hdm
    omega
  have key : ∀ r t : Nat, r.Prime → (p - 1) * (q - 1) = (r - 1) * t →
      v ^ (e * d) ≡ v [MOD r] := by
    intro r t hr hφr
    by_cases hdvd : r ∣ v
    · have h1 : v ≡ 0 [MOD r] := Nat.modEq_zero_iff_dvd.mpr hdvd
      have h2 : v ^ (e * d) ≡ 0 [MOD r] :=
        Nat.modEq_zero_iff_dvd.mpr (dvd_pow hdvd (by omega))
      exact h2.trans h1.symm
    · have hcop : v.Coprime r :=
        ((Nat.Prime.coprime_iff_not_dvd hr).mpr hdvd).symm
      have hflt : v ^ (r - 1) ≡ 1 [MOD r] := by
        have ht := Nat.ModEq.pow_totient hcop
        rwa [Nat.totient_prime hr] at ht
      have hexp : e * d = 1 + (r - 1) * (t * s) := by
        rw [hsplit, hφr]
        ring
      calc v ^ (e * d) = v ^ (1 + (r - 1) * (t * s)) := by
            rw [← hexp]
        _ = v * (v ^ (r - 1)) ^ (t * s) := by
            rw [pow_add, pow_mul, pow_one]
        _ ≡ v * 1 ^ (t * s) [MOD r] :=
            Nat.ModEq.mul_left v (hflt.pow _)
        _ = v := by ring
  have hcp : Nat.Coprime p q := (Nat.coprime_primes hp hq).mpr hne
  have h1 := key p (q - 1) hp rfl
  have h2 := key q (p - 1) hq (by ring)
  exact (Nat.modEq_and_modEq_iff_modEq_mul hcp).mp ⟨h1, h2⟩

/-- One-block RSA round trip: encrypt then decrypt with `pow(·, e, n)`
and `pow(·, d, n)` recovers any block below the modulus. -/
theorem rsa_block {p q e d : Nat} (hp : p.Prime) (hq : q.Prime) (hne : p ≠ q)
    (hed : (e * d) % ((p - 1) * (q - 1)) = 1)
    (v : Nat) (hv : v < p * q) :
    pow_mod (pow_mod v e (p * q)) d (p * q) = v := by
  have hcong : v ^ (e * d) % (p * q) = v % (p * q) :=
    rsa_pow_congr hp hq hne hed v
  rw [pow_mod_eq, pow_mod_eq, ← Nat.pow_mod, ← pow_mul, hcong,
    Nat.mod_eq_of_lt hv]

/-- The set of possible results of crypt.py `generate_key_pair(key_size)`
(lines 75-99, default exponent path), with all random draws explicit:
`p` and `q` are values of `get_key_prime(key_size)` =
`find_random_prime(2**(key_size-1), 2**key_size)` — random numbers in the
range accepted by `is_prime` under some Miller-Rabin base draws (five
rounds, each base from `randrange(2, n-1)`) — redrawn until `p ≠ q`;
`n = p*q`; `e = 65537`; `d = multinv((p-1)*(q-1), e)`.  `multinv` always
returns a non-negative value here (`priv = (n, di.toNat)` with
`di ≥ 0` whenever the gcd precondition of `multinv` holds). -/
def IsKeyPairOutcome (k p q : Nat) (pub priv : Nat × Nat) : Prop :=
  2 ^ (k - 1) ≤ p ∧ p < 2 ^ k ∧ 2 ^ (k - 1) ≤ q ∧ q < 2 ^ k ∧ p ≠ q ∧
  (∃ bp : List Nat, bp.length = 5 ∧ (∀ a ∈ bp, 2 ≤ a ∧ a ≤ p - 2) ∧
    is_prime_with p bp = true) ∧
  (∃ bq : List Nat, bq.length = 5 ∧ (∀ a ∈ bq, 2 ≤ a ∧ a ≤ q - 2) ∧
    is_prime_with q bq = true) ∧
  pub = (p * q, 65537) ∧
  (∃ di : Int, multinv (((p - 1) * (q - 1) : Nat) : Int) 65537 = some di
    ∧ priv = (p * q, di.toNat))

theorem is_prime_with_ge_two {n : Nat} {b : List Nat}
    (h : is_prime_with n b = true) : 2 ≤ n := by
  by_contra hc
  push_neg at hc
  unfold is_prime_with at h
  rw [if_pos (by omega)] at h
  exact Bool.false_ne_true h

theorem totient_one_lt {p q : Nat} (hp : 2 ≤ p) (hq : 2 ≤ q) (hne : p ≠ q) :
    1 < (p - 1) * (q - 1) := by
  rcases Nat.lt_or_ge p 3 with h3 | h3
  · have := Nat.mul_le_mul (show 1 ≤ p - 1 by omega) (show 2 ≤ q - 1 by omega)
    omega
  · have := Nat.mul_le_mul (show 2 ≤ p - 1 by omega) (show 1 ≤ q - 1 by omega)
    omega

/-- Shared derivation: under the gcd side condition the generated private
exponent is a genuine inverse of `65537` modulo `(p-1)(q-1)`. -/
theorem keypair_exponent_inverse {p q : Nat} {di : Int}
    (hpge : 2 ≤ p) (hqge : 2 ≤ q) (hne : p ≠ q)
    (hmi : multinv (((p - 1) * (q - 1) : Nat) : Int) 65537 = some di)
    (hgcd : Nat.gcd 65537 ((p - 1) * (q - 1)) = 1) :
    0 ≤ di ∧ (65537 * di.toNat) % ((p - 1) * (q - 1)) = 1 := by
  have hφ : 1 < (p - 1) * (q - 1) := totient_one_lt hpge hqge hne
  have hgInt : Int.gcd (((p - 1) * (q - 1) : Nat) : Int) 65537 = 1 := by
    have hcast : Int.gcd (((p - 1) * (q - 1) : Nat) : Int) (((65537 : Nat)) : Int) = 1 := by
      rw [Int.gcd_natCast_natCast, Nat.gcd_comm]
      exact hgcd
    exact hcast
  obtain ⟨r, hr, hr0, hrlt, hrmod⟩ :=
    multinv_correct (((p - 1) * (q - 1) : Nat) : Int) 65537
      (by exact_mod_cast hφ) (by norm_num) hgInt
  rw [hmi] at hr
  obtain rfl : di = r := Option.some.inj hr
  refine ⟨hr0, ?_⟩
  have hphi0 : (0:Int) ≤ (((p - 1) * (q - 1) : Nat) : Int) := by positivity
  rw [Int.fmod_eq_emod _ hphi0] at hrmod
  have hrnat : (di.toNat : Int) = di := Int.toNat_of_nonneg hr0
  have hcast2 : (((65537 * di.toNat) % ((p - 1) * (q - 1)) : Nat) : Int)
      = ((65537 : Int) * di) % (((p - 1) * (q - 1) : Nat) : Int) := by
    rw [Int.natCast_mod]
    push_cast [hrnat]
    ring_nf
  have := hcast2.trans hrmod
  exact_mod_cast this

/-- C3 (amended): every outcome of `generate_key_pair(k)` has `p ≠ q` and
both keys share the modulus `n = p*q` with public exponent `e = 65537`;
and whenever `gcd(e, (p-1)(q-1)) = 1` — a side condition the code does
not enforce — the private exponent additionally satisfies
`(e*d) mod (p-1)(q-1) = 1`. -/
theorem C3_keypair_validity (k p q : Nat) (pub priv : Nat × Nat)
    (h : IsKeyPairOutcome k p q pub priv) :
    p ≠ q ∧ pub = (p * q, 65537) ∧ priv.1 = p * q ∧
    (Nat.gcd 65537 ((p - 1) * (q - 1)) = 1 →
      (65537 * priv.2) % ((p - 1) * (q - 1)) = 1) := by
  obtain ⟨hp1, hp2, hq1, hq2, hne, ⟨bp, hbp⟩, ⟨bq, hbq⟩, hpub, di, hmi, hpriv⟩ := h
  have hpge : 2 ≤ p := is_prime_with_ge_two hbp.2.2
  have hqge : 2 ≤ q := is_prime_with_ge_two hbq.2.2
  refine ⟨hne, hpub, by rw [hpriv], ?_⟩
  intro hgcd
  obtain ⟨-, hinv⟩ := keypair_exponent_inverse hpge hqge hne hmi hgcd
  rw [hpriv]
  exact hinv

set_option maxRecDepth 100000 in
theorem C3_keypair_validity_witness :
    IsKeyPairOutcome 5 17 19 (323, 65537) (323, 161)
    ∧ (17 ≠ 19 ∧ ((323, 65537) : Nat × Nat) = (17 * 19, 65537)
        ∧ ((323, 161) : Nat × Nat).1 = 17 * 19
        ∧ (Nat.gcd 65537 ((17 - 1) * (19 - 1)) = 1 →
            (65537 * ((323, 161) : Nat × Nat).2) % ((17 - 1) * (19 - 1)) = 1)) := by
  have houtcome : IsKeyPairOutcome 5 17 19 (323, 65537) (323, 161) := by
    refine ⟨by norm_num, by norm_num, by norm_num, by norm_num, by norm_num,
      ⟨[2, 3, 5, 7, 11], rfl, by decide, by decide⟩,
      ⟨[2, 3, 5, 7, 11], rfl, by decide, by decide⟩,
      rfl, 161, by decide, rfl⟩
  exact ⟨houtcome, C3_keypair_validity 5 17 19 (323, 65537) (323, 161) houtcome⟩

set_option maxRecDepth 100000 in
/-- C3 counterexample: the outcome drawing the primes `p = 917519`
(`p ≡ 1 mod 65537`) and `q = 524309` at key size 20 is a possible run of
`generate_key_pair(20)`, yet `gcd(e, (p-1)(q-1)) = 65537 ≠ 1`, so the
claimed coprimality (and with it `e*d ≡ 1`) fails: the code never checks
that the default exponent is coprime to `(p-1)(q-1)`. -/
theorem C3_counterexample :
    IsKeyPairOutcome 20 917519 524309 (481063469371, 65537) (481063469371, 0)
    ∧ Nat.gcd 65537 ((917519 - 1) * (524309 - 1)) ≠ 1 := by
  refine ⟨⟨by norm_num, by norm_num, by norm_num, by norm_num, by norm_num,
    ⟨[2, 2, 2, 2, 2], rfl, by decide, by decide⟩,
    ⟨[2, 2, 2, 2, 2], rfl, by decide, by decide⟩,
    rfl, 0, by decide, rfl⟩, by decide⟩

/-- C1 (amended): for every outcome of `generate_key_pair(k)` in which
the accepted `p` and `q` are in fact prime and
`gcd(65537, (p-1)(q-1)) = 1` (a side condition the generator does not
enforce, see the counterexample), every ASCII message without trailing
NUL, and every `blockSize ≥ 1` with `blockSize*8` below the modulus bit
size, decrypt then encrypt is the identity. -/
theorem C1_encrypt_decrypt_inverse (k p q : Nat) (pub priv : Nat × Nat)
    (h : IsKeyPairOutcome k p q pub priv)
    (hp : Nat.Prime p) (hq : Nat.Prime q)
    (hgcd : Nat.gcd 65537 ((p - 1) * (q - 1)) = 1)
    (m : List Nat) (bs : Nat) (hbs : 1 ≤ bs)
    (hascii : ∀ c ∈ m, c < 128) (hnul : rstripNul m = m)
    (hsize : bs * 8 < Nat.log2 (p * q) + 1) :
    decrypt (encrypt m pub bs) priv bs = m := by
  obtain ⟨hp1, hp2, hq1, hq2, hne, ⟨bp, hbp⟩, ⟨bq, hbq⟩, hpub, di, hmi, hpriv⟩ := h
  have hpge : 2 ≤ p := is_prime_with_ge_two hbp.2.2
  have hqge : 2 ≤ q := is_prime_with_ge_two hbq.2.2
  obtain ⟨hdi0, hinv⟩ := keypair_exponent_inverse hpge hqge hne hmi hgcd
  have hn0 : p * q ≠ 0 := by
    have := Nat.mul_pos (show 0 < p by omega) (show 0 < q by omega)
    omega
  have hblock : ∀ v ∈ text2int m bs, v < p * q := by
    intro v hv
    have h1 : v < 256 ^ bs :=
      text2int_blocks_lt (fun c hc => lt_trans (hascii c hc) (by norm_num)) v hv
    have h2 : (256:Nat) ^ bs = 2 ^ (8 * bs) := by
      rw [show (256:Nat) = 2 ^ 8 from by norm_num, ← pow_mul]
    have h3 : 2 ^ (8 * bs) ≤ p * q := by
      apply (Nat.le_log2 hn0).mp
      omega
    omega
  rw [hpub, hpriv]
  show int2text (((text2int m bs).map (fun v => pow_mod v 65537 (p * q))).map
      (fun v => pow_mod v di.toNat (p * q))) bs = m
  rw [List.map_map]
  have hmapid : (text2int m bs).map
      ((fun v => pow_mod v di.toNat (p * q)) ∘ (fun v => pow_mod v 65537 (p * q)))
      = text2int m bs := by
    have hpt : ∀ v ∈ text2int m bs,
        pow_mod (pow_mod v 65537 (p * q)) di.toNat (p * q) = v :=
      fun v hv => rsa_block hp hq hne hinv v (hblock v hv)
    calc (text2int m bs).map _ = (text2int m bs).map id :=
          List.map_congr_left (fun v hv => hpt v hv)
      _ = text2int m bs := List.map_id _
  rw [hmapid,
    int2text_text2int m bs hbs (fun c hc => lt_trans (hascii c hc) (by norm_num)),
    hnul]

set_option maxRecDepth 100000 in
theorem C1_encrypt_decrypt_inverse_witness :
    IsKeyPairOutcome 5 17 19 (323, 65537) (323, 161)
    ∧ Nat.Prime 17 ∧ Nat.Prime 19 ∧ Nat.gcd 65537 ((17 - 1) * (19 - 1)) = 1
    ∧ 1 ≤ 1 ∧ (∀ c ∈ [104, 105], c < 128) ∧ rstripNul [104, 105] = [104, 105]
    ∧ 1 * 8 < Nat.log2 (17 * 19) + 1
    ∧ decrypt (encrypt [104, 105] (323, 65537) 1) (323, 161) 1 = [104, 105] := by
  have houtcome : IsKeyPairOutcome 5 17 19 (323, 65537) (323, 161) := by
    refine ⟨by norm_num, by norm_num, by norm_num, by norm_num, by norm_num,
      ⟨[2, 3, 5, 7, 11], rfl, by decide, by decide⟩,
      ⟨[2, 3, 5, 7, 11], rfl, by decide, by decide⟩,
      rfl, 161, by decide, rfl⟩
  have hsize : 1 * 8 < Nat.log2 (17 * 19) + 1 := by
    have h8 : 8 ≤ Nat.log2 (17 * 19) := (Nat.le_log2 (by norm_num)).mpr (by norm_num)
    omega
  exact ⟨houtcome, by norm_num, by norm_num, by decide, by decide, by decide,
    by decide, hsize,
    C1_encrypt_decrypt_inverse 5 17 19 (323, 65537) (323, 161) houtcome
      (by norm_num) (by norm_num) (by decide) [104, 105] 1 (by decide)
      (by decide) (by decide) hsize⟩

set_option maxRecDepth 100000 in
/-- C1 counterexample: with the possible outcome `p = 917519`
(`p ≡ 1 mod 65537`), `q = 524309` of `generate_key_pair(20)`,
`multinv((p-1)(q-1), 65537)` returns the garbage value `0` (the gcd
precondition fails), so decryption maps every block to `1` and the
round trip loses the message `"a"` even though `blockSize*8 = 8` is far
below the 39-bit modulus. -/
theorem C1_counterexample :
    IsKeyPairOutcome 20 917519 524309 (481063469371, 65537) (481063469371, 0)
    ∧ (∀ c ∈ [97], c < 128) ∧ rstripNul [97] = [97]
    ∧ 1 * 8 < Nat.log2 (917519 * 524309) + 1
    ∧ decrypt (encrypt [97] (481063469371, 65537) 1) (481063469371, 0) 1 ≠ [97] := by
  refine ⟨⟨by norm_num, by norm_num, by norm_num, by norm_num, by norm_num,
    ⟨[2, 2, 2, 2, 2], rfl, by decide, by decide⟩,
    ⟨[2, 2, 2, 2, 2], rfl, by decide, by decide⟩,
    rfl, 0, by decide, rfl⟩, by decide, by decide, ?_, by decide⟩
  have h8 : 8 ≤ Nat.log2 (917519 * 524309) :=
    (Nat.le_log2 (by norm_num)).mpr (by norm_num)
  omega
